import Mathlib

/-!
Verification development for the opentelemetry-tonic carrier adapter.

The source program bridges a tonic `MetadataMap` and the opentelemetry
text-map propagation interface.  ASCII strings are modelled as lists of
bytes (natural numbers below 256); the metadata map is modelled as an
association list from canonical (lowercased) key names to the nonempty
list of values stored for that key.  The validation rules of
`MetadataKey.from_str`, `MetadataValue` parsing and `to_str` follow the
documented behaviour of the tonic / http metadata types that the source
calls into: header-name bytes are the lowercase letters, digits and the
token symbols, uppercase letters are canonicalised to lowercase, ASCII
metadata keys must not use the reserved binary "-bin" suffix, and ASCII
metadata values are strings of visible ASCII bytes (or horizontal tab).
-/

namespace OtelTonic

/-- Lowercase an ASCII byte: bytes 65..90 (A..Z) map to 97..122 (a..z),
every other byte is unchanged. -/
def lowerByte (b : Nat) : Nat :=
  if 65 ≤ b ∧ b ≤ 90 then b + 32 else b

/-- Validation and canonicalisation of a single byte of a header name:
lowercase letters, digits and the header token symbols are kept, uppercase
letters are lowercased, every other byte is rejected. -/
def headerNameByte (b : Nat) : Option Nat :=
  if 97 ≤ b ∧ b ≤ 122 then some b
  else if 65 ≤ b ∧ b ≤ 90 then some (b + 32)
  else if 48 ≤ b ∧ b ≤ 57 then some b
  else if b = 33 ∨ b = 35 ∨ b = 36 ∨ b = 37 ∨ b = 38 ∨ b = 39 ∨ b = 42 ∨
          b = 43 ∨ b = 45 ∨ b = 46 ∨ b = 94 ∨ b = 95 ∨ b = 96 ∨ b = 124 ∨
          b = 126 then some b
  else none

/-- Validate every byte of a candidate header name, producing the
canonical (lowercased) name, or `none` if some byte is invalid. -/
def mapHeaderBytes : List Nat → Option (List Nat)
  | [] => some []
  | b :: rest =>
    match headerNameByte b, mapHeaderBytes rest with
    | some c, some cs => some (c :: cs)
    | _, _ => none

/-- Header-name parsing: a name is valid when it is nonempty and every
byte is a valid header-name byte; the result is the canonical name. -/
def parseHeaderName (s : List Nat) : Option (List Nat) :=
  if s.isEmpty then none else mapHeaderBytes s

/-- The reserved gRPC binary-key suffix "-bin", as bytes. -/
def binSuffix : List Nat := [45, 98, 105, 110]

/-- Whether a canonical key name uses the reserved binary "-bin" suffix. -/
def isBinName (s : List Nat) : Bool := binSuffix.isSuffixOf s

namespace MetadataKey

/-- Parsing of an ASCII metadata key, as done by the injector: the string
must be a valid header name and the canonical name must not use the
binary "-bin" suffix.  Returns the canonical key name. -/
def from_str (s : List Nat) : Option (List Nat) :=
  match parseHeaderName s with
  | none => none
  | some name => if isBinName name then none else some name

end MetadataKey

/-- Whether a byte may appear in a readable ASCII metadata value: visible
ASCII (32..126) or horizontal tab. -/
def isVisibleAsciiByte (b : Nat) : Bool :=
  decide ((32 ≤ b ∧ b < 127) ∨ b = 9)

/-- Parsing a string into an ASCII metadata value: accepted exactly when
every byte is visible ASCII (or tab); the stored bytes are the string
itself. -/
def metadataValueParse (s : List Nat) : Option (List Nat) :=
  if s.all isVisibleAsciiByte then some s else none

/-- Reading a stored metadata value back as a string: succeeds exactly
when every stored byte is visible ASCII (or tab). -/
def metadataValueToStr (v : List Nat) : Option (List Nat) :=
  if v.all isVisibleAsciiByte then some v else none

/-- A tonic MetadataMap, modelled as an association list from canonical
key names to the list of values stored for that key. -/
abbrev MetadataMap := List (List Nat × List (List Nat))

/-- Lookup of the values stored for a canonical key name. -/
def mapLookup : MetadataMap → List Nat → Option (List (List Nat))
  | [], _ => none
  | (k0, vs) :: rest, k => if k0 = k then some vs else mapLookup rest k

/-- Map insertion as performed by `MetadataMap::insert`: all values
previously stored for the key are replaced by the single new value. -/
def mapInsert : MetadataMap → List Nat → List Nat → MetadataMap
  | [], k, v => [(k, [v])]
  | (k0, vs) :: rest, k, v =>
    if k0 = k then (k, [v]) :: rest else (k0, vs) :: mapInsert rest k v

/-- Lookup through a string key, as `MetadataMap::get` does for an ASCII
key: the string is canonicalised (case-insensitively), keys with the
binary suffix are not visible to an ASCII lookup, and the first stored
value is returned. -/
def metadataMapGet (m : MetadataMap) (k : List Nat) : Option (List Nat) :=
  match parseHeaderName k with
  | none => none
  | some name =>
    if isBinName name then none
    else (mapLookup m name).bind List.head?

namespace MetadataInjector

/-- Embedding of `MetadataInjector::set` from src/src/lib.rs: parse the
key as an ASCII metadata key, parse the value as an ASCII metadata value,
and insert on success; on any validation failure the map is returned
unchanged. -/
def set (m : MetadataMap) (k v : List Nat) : MetadataMap :=
  match MetadataKey.from_str k with
  | none => m
  | some name =>
    match metadataValueParse v with
    | none => m
    | some val => mapInsert m name val

end MetadataInjector

namespace MetadataExtractor

/-- Embedding of `MetadataExtractor::get` from src/src/lib.rs: look the
key up in the wrapped map and convert the stored value to a string,
returning `none` if either step fails. -/
def get (m : MetadataMap) (k : List Nat) : Option (List Nat) :=
  (metadataMapGet m k).bind metadataValueToStr

/-- Embedding of `MetadataExtractor::keys` from src/src/lib.rs: every key
name currently in the map, binary-suffixed or plain, as a string. -/
def keys (m : MetadataMap) : List (List Nat) := m.map Prod.fst

end MetadataExtractor

/-- Modelled from the spec: a propagator-defined trace identity (trace id,
span id, trace flags) carried by a Context.  The propagator itself is an
external collaborator of this repository (the W3C trace-context propagator
named in the pre-requisite comments of src/src/lib.rs); its byte-level
encoding is out of scope for the source and is modelled here. -/
structure SpanContext where
  traceId : Nat
  spanId : Nat
  traceFlags : Nat
  deriving DecidableEq, Repr

/-- Whether a span context is valid for injection: nonzero identifiers
within their 128-bit / 64-bit / 8-bit ranges. -/
def SpanContext.isValid (sc : SpanContext) : Prop :=
  0 < sc.traceId ∧ sc.traceId < 2 ^ 128 ∧
  0 < sc.spanId ∧ sc.spanId < 2 ^ 64 ∧
  sc.traceFlags < 2 ^ 8

instance (sc : SpanContext) : Decidable sc.isValid := by
  unfold SpanContext.isValid; infer_instance

/-- Modelled from the spec: an immutable Context value, holding the
remote span identity extracted by or injected through the propagator
(empty when no valid trace identity is present). -/
structure Context where
  remoteSpan : Option SpanContext
  deriving DecidableEq, Repr

/-- The propagator-defined empty context. -/
def Context.empty : Context := ⟨none⟩

/-- Lowercase hex digit byte for a value below 16. -/
def hexDigitByte (d : Nat) : Nat := if d < 10 then 48 + d else 87 + d

/-- Fixed-width big-endian lowercase hex encoding of a natural number. -/
def hexEncode : Nat → Nat → List Nat
  | 0, _ => []
  | w + 1, n => hexDigitByte (n / 16 ^ w) :: hexEncode w (n % 16 ^ w)

/-- Value of one hex digit byte (lowercase letters or digits). -/
def hexDigitVal (b : Nat) : Option Nat :=
  if 48 ≤ b ∧ b ≤ 57 then some (b - 48)
  else if 97 ≤ b ∧ b ≤ 102 then some (b - 87)
  else none

/-- Big-endian hex decoding with an accumulator. -/
def hexDecodeAux : List Nat → Nat → Option Nat
  | [], acc => some acc
  | b :: rest, acc =>
    match hexDigitVal b with
    | some d => hexDecodeAux rest (16 * acc + d)
    | none => none

/-- Big-endian hex decoding of a byte string. -/
def hexDecode (s : List Nat) : Option Nat := hexDecodeAux s 0

/-- The bytes of the key "traceparent". -/
def traceparentKey : List Nat :=
  [116, 114, 97, 99, 101, 112, 97, 114, 101, 110, 116]

/-- Modelled from the spec: the W3C traceparent header value for a span
context, "00-" followed by the 32-hex-digit trace id, the 16-hex-digit
span id and the 2-hex-digit flags, dash-separated. -/
def traceparentValue (sc : SpanContext) : List Nat :=
  hexEncode 2 0 ++ 45 ::
    (hexEncode 32 sc.traceId ++ 45 ::
      (hexEncode 16 sc.spanId ++ 45 :: hexEncode 2 sc.traceFlags))

/-- Read a fixed number of hex digits from the front of a byte string,
returning the decoded value and the remaining bytes. -/
def splitHex (w : Nat) (s : List Nat) : Option (Nat × List Nat) :=
  if (s.take w).length = w then
    match hexDecode (s.take w) with
    | some n => some (n, s.drop w)
    | none => none
  else none

/-- Consume a dash byte from the front of a byte string. -/
def expectDash : List Nat → Option (List Nat)
  | [] => none
  | b :: rest => if b = 45 then some rest else none

/-- Modelled from the spec: parsing of a version-00 traceparent header
value; any malformed value (wrong shape, bad digits, zero trace id or
zero span id) yields no span context. -/
def parseTraceparent (s : List Nat) : Option SpanContext :=
  match splitHex 2 s with
  | none => none
  | some (ver, s1) =>
    match expectDash s1 with
    | none => none
    | some s2 =>
      match splitHex 32 s2 with
      | none => none
      | some (tid, s3) =>
        match expectDash s3 with
        | none => none
        | some s4 =>
          match splitHex 16 s4 with
          | none => none
          | some (sid, s5) =>
            match expectDash s5 with
            | none => none
            | some s6 =>
              match splitHex 2 s6 with
              | none => none
              | some (fl, rest) =>
                if ver = 0 ∧ rest = [] ∧ tid ≠ 0 ∧ sid ≠ 0 then
                  some ⟨tid, sid, fl⟩
                else none

/-- Modelled from the spec: propagator `inject_context` over the carrier
adapter — writes the traceparent header through `MetadataInjector.set`
when the context holds a valid span context, and writes nothing
otherwise. -/
def injectContext (cx : Context) (m : MetadataMap) : MetadataMap :=
  match cx.remoteSpan with
  | none => m
  | some sc =>
    if sc.isValid then
      MetadataInjector.set m traceparentKey (traceparentValue sc)
    else m

/-- Modelled from the spec: propagator `extract` over the carrier
adapter — reads the traceparent header through `MetadataExtractor.get`
and returns the propagator-defined empty context whenever the header is
missing or malformed. -/
def extractContext (m : MetadataMap) : Context :=
  match MetadataExtractor.get m traceparentKey with
  | none => Context.empty
  | some v =>
    match parseTraceparent v with
    | none => Context.empty
    | some sc => ⟨some sc⟩

/-- Modelled from the spec: the state of the current tracing span — its
own identity and its parent context. -/
structure SpanState where
  parent : Context
  spanId : Nat
  deriving DecidableEq, Repr

/-- Embedding of `tracing_parent_span_from_req` from src/src/lib.rs:
extract a context from the request metadata through the propagator and
set it as the parent of the current span. -/
def tracing_parent_span_from_req (m : MetadataMap) (s : SpanState) : SpanState :=
  { s with parent := extractContext m }

/-- Embedding of `tracing_current_span_to_req` from src/src/lib.rs:
inject the context of the current span into the request metadata through
the propagator. -/
def tracing_current_span_to_req (cx : Context) (m : MetadataMap) : MetadataMap :=
  injectContext cx m

/-- Modelled from the spec: the thread-local ambient context slot with
its stack of attached contexts; the head is the current context and each
live guard corresponds to one stack entry. -/
structure ThreadCx where
  stack : List Context
  deriving DecidableEq, Repr

/-- The current ambient context: the most recently attached one, or the
empty context when nothing is attached. -/
def ThreadCx.current (t : ThreadCx) : Context := t.stack.headD Context.empty

/-- Modelled from the spec: `Context::attach` — make a context current;
the returned guard corresponds to the pushed entry. -/
def ThreadCx.attach (t : ThreadCx) (cx : Context) : ThreadCx := ⟨cx :: t.stack⟩

/-- Modelled from the spec: dropping the most recently created guard —
the one restore that the guard performs at release. -/
def ThreadCx.release (t : ThreadCx) : ThreadCx := ⟨t.stack.tail⟩

/-- Embedding of `otel_thread_cx_from_req` from src/src/lib.rs: extract a
context from the request metadata and attach it as the ambient context;
the guard held by the caller corresponds to the pushed entry. -/
def otel_thread_cx_from_req (m : MetadataMap) (t : ThreadCx) : ThreadCx :=
  t.attach (extractContext m)

/-- Embedding of `otel_thread_cx_to_req` from src/src/lib.rs: inject the
current ambient context into the request metadata through the
propagator. -/
def otel_thread_cx_to_req (t : ThreadCx) (m : MetadataMap) : MetadataMap :=
  injectContext t.current m

/-! Helper lemmas about the metadata map and the validation functions. -/

theorem mapLookup_mapInsert (m : MetadataMap) (k v k' : List Nat) :
    mapLookup (mapInsert m k v) k' =
      if k' = k then some [v] else mapLookup m k' := by
  induction m with
  | nil =>
    by_cases h : k' = k
    · simp [mapInsert, mapLookup, h]
    · simp [mapInsert, mapLookup, h, Ne.symm h]
  | cons hd rest ih =>
    obtain ⟨k0, vs⟩ := hd
    by_cases h1 : k0 = k
    · subst h1
      by_cases h2 : k' = k0
      · simp [mapInsert, mapLookup, h2]
      · simp [mapInsert, mapLookup, h2, Ne.symm h2]
    · by_cases h2 : k0 = k'
      · subst h2
        simp [mapInsert, mapLookup, h1, Ne.symm h1]
      · simp [mapInsert, mapLookup, h1, h2, ih]

theorem mapInsert_idem (m : MetadataMap) (k v : List Nat) :
    mapInsert (mapInsert m k v) k v = mapInsert m k v := by
  induction m with
  | nil => simp [mapInsert]
  | cons hd rest ih =>
    obtain ⟨k0, vs⟩ := hd
    by_cases h : k0 = k
    · simp [mapInsert, h]
    · simp [mapInsert, h, ih]

theorem from_str_spec (k name : List Nat)
    (hk : MetadataKey.from_str k = some name) :
    parseHeaderName k = some name ∧ isBinName name = false := by
  unfold MetadataKey.from_str at hk
  cases hpn : parseHeaderName k with
  | none => rw [hpn] at hk; exact absurd hk (by simp)
  | some nm =>
    rw [hpn] at hk
    by_cases hb : isBinName nm = true
    · simp [hb] at hk
    · simp [hb] at hk
      subst hk
      exact ⟨rfl, by simpa using hb⟩

theorem mapHeaderBytes_append (a b : List Nat) :
    mapHeaderBytes (a ++ b) =
      match mapHeaderBytes a, mapHeaderBytes b with
      | some x, some y => some (x ++ y)
      | _, _ => none := by
  induction a with
  | nil => cases hb : mapHeaderBytes b <;> simp [mapHeaderBytes, hb]
  | cons c a ih =>
    cases h1 : headerNameByte c <;>
      cases h2 : mapHeaderBytes a <;>
        cases h3 : mapHeaderBytes b <;>
          simp_all [mapHeaderBytes]

theorem from_str_bin_none (k : List Nat) (hb : isBinName k = true) :
    MetadataKey.from_str k = none := by
  unfold MetadataKey.from_str
  cases hpn : parseHeaderName k with
  | none => rfl
  | some name =>
    suffices hs : isBinName name = true by simp [hs]
    have hk' : mapHeaderBytes k = some name := by
      unfold parseHeaderName at hpn
      by_cases he : k.isEmpty
      · rw [if_pos he] at hpn; exact absurd hpn (by simp)
      · rw [if_neg he] at hpn; exact hpn
    obtain ⟨t, ht⟩ := List.isSuffixOf_iff_suffix.mp hb
    rw [← ht, mapHeaderBytes_append] at hk'
    have hbs : mapHeaderBytes binSuffix = some binSuffix := by decide
    rw [hbs] at hk'
    cases hmt : mapHeaderBytes t with
    | none => rw [hmt] at hk'; exact absurd hk' (by simp)
    | some x =>
      rw [hmt] at hk'
      obtain rfl : x ++ binSuffix = name := by simpa using hk'
      exact List.isSuffixOf_iff_suffix.mpr (List.suffix_append x binSuffix)

/-! Claim theorems for the carrier adapter. -/

/-- C1: if the key is not a valid ASCII metadata key or the value is not a
valid ASCII metadata value, `MetadataInjector::set` leaves the wrapped
metadata map completely unchanged. -/
theorem set_invalid_noop (m : MetadataMap) (k v : List Nat)
    (h : MetadataKey.from_str k = none ∨ metadataValueParse v = none) :
    MetadataInjector.set m k v = m := by
  rcases h with h | h
  · simp [MetadataInjector.set, h]
  · cases hk : MetadataKey.from_str k with
    | none => simp [MetadataInjector.set, hk]
    | some name => simp [MetadataInjector.set, hk, h]

/-- Witness for C1: setting the invalid key consisting of a space byte
leaves the empty map unchanged. -/
theorem set_invalid_noop_w :
    MetadataInjector.set [] [32] [97] = ([] : MetadataMap) :=
  set_invalid_noop [] [32] [97] (Or.inl (by decide))

/-- C4: a successful `set` replaces rather than appends, so setting the
same pair twice equals setting it once, and injecting the same context
twice into the same carrier equals injecting it once. -/
theorem set_inject_idempotent :
    (∀ (m : MetadataMap) (k v : List Nat),
      MetadataInjector.set (MetadataInjector.set m k v) k v =
        MetadataInjector.set m k v) ∧
    (∀ (cx : Context) (m : MetadataMap),
      injectContext cx (injectContext cx m) = injectContext cx m) := by
  have hset : ∀ (m : MetadataMap) (k v : List Nat),
      MetadataInjector.set (MetadataInjector.set m k v) k v =
        MetadataInjector.set m k v := by
    intro m k v
    cases hk : MetadataKey.from_str k with
    | none => simp [MetadataInjector.set, hk]
    | some name =>
      cases hv : metadataValueParse v with
      | none => simp [MetadataInjector.set, hk, hv]
      | some val => simp [MetadataInjector.set, hk, hv, mapInsert_idem]
  refine ⟨hset, ?_⟩
  intro cx m
  cases hcx : cx.remoteSpan with
  | none => simp [injectContext, hcx]
  | some sc =>
    by_cases hv : sc.isValid
    · simp [injectContext, hcx, hv, hset]
    · simp [injectContext, hcx, hv]

/-- C9: a key and value the injector accepts are readable back unchanged
through the extractor on the same map. -/
theorem get_after_set (m : MetadataMap) (k v name : List Nat)
    (hk : MetadataKey.from_str k = some name)
    (hv : (metadataValueParse v).isSome) :
    MetadataExtractor.get (MetadataInjector.set m k v) k = some v := by
  have hall : v.all isVisibleAsciiByte = true := by
    by_contra hc
    simp [metadataValueParse, hc] at hv
  have hparse : metadataValueParse v = some v := by
    simp [metadataValueParse, hall]
  obtain ⟨hpn, hbin⟩ := from_str_spec k name hk
  simp [MetadataInjector.set, hk, hparse, MetadataExtractor.get,
    metadataMapGet, hpn, hbin, mapLookup_mapInsert, metadataValueToStr, hall]
  simpa using hall

/-- Witness for C9: after setting key "A" to value "b" the extractor
returns "b" for key "A". -/
theorem get_after_set_w :
    MetadataExtractor.get (MetadataInjector.set [] [65] [98]) [65] =
      some [98] :=
  get_after_set [] [65] [98] [97] (by decide) (by decide)

/-- C7: every key present in the metadata map appears in the list
returned by `MetadataExtractor::keys`. -/
theorem keys_complete (m : MetadataMap) (k : List Nat)
    (h : (mapLookup m k).isSome) : k ∈ MetadataExtractor.keys m := by
  induction m with
  | nil => simp [mapLookup] at h
  | cons hd rest ih =>
    obtain ⟨k0, vs⟩ := hd
    by_cases he : k0 = k
    · simp [MetadataExtractor.keys, he]
    · rw [mapLookup, if_neg he] at h
      simpa [MetadataExtractor.keys] using Or.inr (ih h)

/-- Witness for C7: the key "t" of a singleton map appears in the
extractor key list. -/
theorem keys_complete_w :
    [116] ∈ MetadataExtractor.keys [([116], [[97]])] :=
  keys_complete [([116], [[97]])] [116] (by decide)

/-- C10: a key using the binary "-bin" suffix is silently discarded by
the injector whatever the value is, and every key that a `set` call can
make resolvable in the map either was already there or is free of the
binary suffix — the injector never adds a binary-flavored entry. -/
theorem injector_no_binary_entries :
    (∀ (m : MetadataMap) (k v : List Nat), isBinName k = true →
      MetadataInjector.set m k v = m) ∧
    (∀ (m : MetadataMap) (k v name : List Nat) (vs : List (List Nat)),
      mapLookup (MetadataInjector.set m k v) name = some vs →
      mapLookup m name = some vs ∨ isBinName name = false) := by
  constructor
  · intro m k v hb
    simp [MetadataInjector.set, from_str_bin_none k hb]
  · intro m k v name vs hlk
    cases hk : MetadataKey.from_str k with
    | none => rw [MetadataInjector.set, hk] at hlk; exact Or.inl hlk
    | some nm =>
      cases hv : metadataValueParse v with
      | none =>
        rw [MetadataInjector.set, hk] at hlk
        simp only [hv] at hlk
        exact Or.inl hlk
      | some val =>
        rw [MetadataInjector.set, hk] at hlk
        simp only [hv] at hlk
        rw [mapLookup_mapInsert] at hlk
        by_cases hnm : name = nm
        · subst hnm
          exact Or.inr (from_str_spec k name hk).2
        · rw [if_neg hnm] at hlk
          exact Or.inl hlk

/-- Witness for C10: the binary-suffixed key "a-bin" is discarded on the
empty map, and the entry made resolvable by setting key "a" is free of
the binary suffix. -/
theorem injector_no_binary_entries_w :
    MetadataInjector.set [] [97, 45, 98, 105, 110] [99] = ([] : MetadataMap) ∧
    (mapLookup ([] : MetadataMap) [97] = some [[99]] ∨ isBinName [97] = false) :=
  ⟨injector_no_binary_entries.1 [] [97, 45, 98, 105, 110] [99] (by decide),
   injector_no_binary_entries.2 [] [97] [99] [97] [[99]] (by decide)⟩

/-! Helper lemmas for case-insensitivity of the read side. -/

theorem headerNameByte_lowerByte (b : Nat) :
    headerNameByte (lowerByte b) = headerNameByte b := by
  unfold lowerByte headerNameByte
  split_ifs <;> first | rfl | omega

theorem mapHeaderBytes_map_lower (s : List Nat) :
    mapHeaderBytes (s.map lowerByte) = mapHeaderBytes s := by
  induction s with
  | nil => rfl
  | cons b rest ih => simp [mapHeaderBytes, headerNameByte_lowerByte, ih]

theorem parseHeaderName_map_lower (s : List Nat) :
    parseHeaderName (s.map lowerByte) = parseHeaderName s := by
  cases s with
  | nil => rfl
  | cons b rest =>
    simp only [parseHeaderName, List.map_cons, List.isEmpty_cons,
      if_neg Bool.false_ne_true]
    exact mapHeaderBytes_map_lower (b :: rest)

/-- C6: the extractor `get` looks keys up case-insensitively (keys equal
after ASCII lowercasing read the same value), returns `none` for an
invalid key, returns `none` when the canonical key is absent from the
map, and returns `none` when the stored value is not representable as a
plain text string. -/
theorem extractor_get_props :
    (∀ (m : MetadataMap) (k1 k2 : List Nat),
      k1.map lowerByte = k2.map lowerByte →
      MetadataExtractor.get m k1 = MetadataExtractor.get m k2) ∧
    (∀ (m : MetadataMap) (k : List Nat), parseHeaderName k = none →
      MetadataExtractor.get m k = none) ∧
    (∀ (m : MetadataMap) (k name : List Nat), parseHeaderName k = some name →
      mapLookup m name = none → MetadataExtractor.get m k = none) ∧
    (∀ (m : MetadataMap) (k name v : List Nat) (vs : List (List Nat)),
      parseHeaderName k = some name → mapLookup m name = some vs →
      vs.head? = some v → metadataValueToStr v = none →
      MetadataExtractor.get m k = none) := by
  refine ⟨?_, ?_, ?_, ?_⟩
  · intro m k1 k2 h
    have hp : parseHeaderName k1 = parseHeaderName k2 := by
      rw [← parseHeaderName_map_lower k1, h, parseHeaderName_map_lower]
    simp [MetadataExtractor.get, metadataMapGet, hp]
  · intro m k h
    simp [MetadataExtractor.get, metadataMapGet, h]
  · intro m k name h1 h2
    by_cases hb : isBinName name = true
    · simp [MetadataExtractor.get, metadataMapGet, h1, hb]
    · simp [MetadataExtractor.get, metadataMapGet, h1, hb, h2]
  · intro m k name v vs h1 h2 h3 h4
    by_cases hb : isBinName name = true
    · simp [MetadataExtractor.get, metadataMapGet, h1, hb]
    · simp [MetadataExtractor.get, metadataMapGet, h1, hb, h2, h3, h4]

/-- Witness for C6: on a map holding key "t" with the unreadable stored
byte 200, keys "T" and "t" read the same, the invalid key made of a space
byte reads `none`, the absent key "a" reads `none`, and the present but
unreadable key "t" reads `none`. -/
theorem extractor_get_props_w :
    MetadataExtractor.get [([116], [[200]])] [84] =
      MetadataExtractor.get [([116], [[200]])] [116] ∧
    MetadataExtractor.get [([116], [[200]])] [32] = none ∧
    MetadataExtractor.get [([116], [[200]])] [97] = none ∧
    MetadataExtractor.get [([116], [[200]])] [116] = none :=
  ⟨extractor_get_props.1 [([116], [[200]])] [84] [116] (by decide),
   extractor_get_props.2.1 [([116], [[200]])] [32] (by decide),
   extractor_get_props.2.2.1 [([116], [[200]])] [97] [97] (by decide) (by decide),
   extractor_get_props.2.2.2 [([116], [[200]])] [116] [116] [200] [[200]]
     (by decide) (by decide) (by decide) (by decide)⟩

/-! Helper lemmas for the hex encoding used by the traceparent format. -/

theorem hexEncode_length (w : Nat) : ∀ n, (hexEncode w n).length = w := by
  induction w with
  | zero => intro n; rfl
  | succ w ih => intro n; simp [hexEncode, ih]

theorem div16_lt (w n : Nat) (h : n < 16 ^ (w + 1)) : n / 16 ^ w < 16 := by
  have hp : 0 < 16 ^ w := pow_pos (by norm_num) w
  rw [Nat.div_lt_iff_lt_mul hp]
  calc n < 16 ^ (w + 1) := h
    _ = 16 * 16 ^ w := by ring

theorem hexDigitVal_hexDigitByte (d : Nat) (h : d < 16) :
    hexDigitVal (hexDigitByte d) = some d := by
  unfold hexDigitVal hexDigitByte
  split_ifs <;> first | omega | (congr 1; omega)

theorem hexDigitByte_visible (d : Nat) (h : d < 16) :
    isVisibleAsciiByte (hexDigitByte d) = true := by
  unfold isVisibleAsciiByte hexDigitByte
  split_ifs <;> simp only [decide_eq_true_eq] <;> omega

theorem hexEncode_all_visible (w : Nat) : ∀ n, n < 16 ^ w →
    (hexEncode w n).all isVisibleAsciiByte = true := by
  induction w with
  | zero => intro n _; rfl
  | succ w ih =>
    intro n h
    have hd : n / 16 ^ w < 16 := div16_lt w n h
    have hm : n % 16 ^ w < 16 ^ w := Nat.mod_lt _ (pow_pos (by norm_num) w)
    simp [hexEncode, hexDigitByte_visible _ hd, ih _ hm]

theorem hexDecodeAux_encode (w : Nat) : ∀ n a, n < 16 ^ w →
    hexDecodeAux (hexEncode w n) a = some (a * 16 ^ w + n) := by
  induction w with
  | zero =>
    intro n a h
    interval_cases n
    simp [hexEncode, hexDecodeAux]
  | succ w ih =>
    intro n a h
    have hd : n / 16 ^ w < 16 := div16_lt w n h
    have hm : n % 16 ^ w < 16 ^ w := Nat.mod_lt _ (pow_pos (by norm_num) w)
    have harith : (16 * a + n / 16 ^ w) * 16 ^ w + n % 16 ^ w =
        a * 16 ^ (w + 1) + n := by
      have hqr : 16 ^ w * (n / 16 ^ w) + n % 16 ^ w = n :=
        Nat.div_add_mod n (16 ^ w)
      calc (16 * a + n / 16 ^ w) * 16 ^ w + n % 16 ^ w
          = a * (16 ^ w * 16) + (16 ^ w * (n / 16 ^ w) + n % 16 ^ w) := by ring
        _ = a * 16 ^ (w + 1) + n := by rw [hqr, pow_succ]
    simp only [hexEncode, hexDecodeAux, hexDigitVal_hexDigitByte _ hd]
    rw [ih (n % 16 ^ w) (16 * a + n / 16 ^ w) hm, harith]

theorem splitHex_encode (w n : Nat) (rest : List Nat) (h : n < 16 ^ w) :
    splitHex w (hexEncode w n ++ rest) = some (n, rest) := by
  have hlen : (hexEncode w n).length = w := hexEncode_length w n
  have htake : (hexEncode w n ++ rest).take w = hexEncode w n :=
    List.take_left' hlen
  have hdrop : (hexEncode w n ++ rest).drop w = rest := List.drop_left' hlen
  have hdec : hexDecode (hexEncode w n) = some n := by
    unfold hexDecode
    simpa using hexDecodeAux_encode w n 0 h
  simp [splitHex, htake, hdrop, hlen, hdec]

theorem traceparentValue_visible (sc : SpanContext) (h : sc.isValid) :
    (traceparentValue sc).all isVisibleAsciiByte = true := by
  obtain ⟨h1, h2, h3, h4, h5⟩ := h
  have e1 : (16 : Nat) ^ 32 = 2 ^ 128 := by norm_num
  have e2 : (16 : Nat) ^ 16 = 2 ^ 64 := by norm_num
  have e3 : (16 : Nat) ^ 2 = 2 ^ 8 := by norm_num
  simp [traceparentValue, List.all_append,
    hexEncode_all_visible 2 0 (by norm_num),
    hexEncode_all_visible 32 sc.traceId (by rw [e1]; exact h2),
    hexEncode_all_visible 16 sc.spanId (by rw [e2]; exact h4),
    hexEncode_all_visible 2 sc.traceFlags (by rw [e3]; exact h5),
    (by decide : isVisibleAsciiByte 45 = true)]

theorem parseTraceparent_traceparentValue (sc : SpanContext) (h : sc.isValid) :
    parseTraceparent (traceparentValue sc) = some sc := by
  obtain ⟨tid, sid, fl⟩ := sc
  obtain ⟨h1, h2, h3, h4, h5⟩ := h
  have e1 : (16 : Nat) ^ 32 = 2 ^ 128 := by norm_num
  have e2 : (16 : Nat) ^ 16 = 2 ^ 64 := by norm_num
  have e3 : (16 : Nat) ^ 2 = 2 ^ 8 := by norm_num
  have p1 := splitHex_encode 2 0
    (45 :: (hexEncode 32 tid ++ 45 :: (hexEncode 16 sid ++ 45 :: hexEncode 2 fl)))
    (by norm_num)
  have p2 := splitHex_encode 32 tid
    (45 :: (hexEncode 16 sid ++ 45 :: hexEncode 2 fl)) (by rw [e1]; exact h2)
  have p3 := splitHex_encode 16 sid (45 :: hexEncode 2 fl) (by rw [e2]; exact h4)
  have p4 : splitHex 2 (hexEncode 2 fl) = some (fl, []) := by
    simpa using splitHex_encode 2 fl [] (by rw [e3]; exact h5)
  simp [traceparentValue, parseTraceparent, p1, p2, p3, p4, expectDash,
    h1.ne', h3.ne']

/-- C3: a context holding a valid span context, injected by
`tracing_current_span_to_req` into a fresh outbound carrier and read back
by `tracing_parent_span_from_req`, is recovered with the same trace id
and span id (the whole span context is recovered). -/
theorem round_trip (sc : SpanContext) (s : SpanState) (h : sc.isValid) :
    (tracing_parent_span_from_req
      (tracing_current_span_to_req ⟨some sc⟩ []) s).parent = ⟨some sc⟩ := by
  have hval := traceparentValue_visible sc h
  have hinj : tracing_current_span_to_req ⟨some sc⟩ [] =
      [(traceparentKey, [traceparentValue sc])] := by
    simp [tracing_current_span_to_req, injectContext, h, MetadataInjector.set,
      (by decide : MetadataKey.from_str traceparentKey = some traceparentKey),
      metadataValueParse, hval, mapInsert]
  have hget : MetadataExtractor.get [(traceparentKey, [traceparentValue sc])]
      traceparentKey = some (traceparentValue sc) := by
    simp [MetadataExtractor.get, metadataMapGet,
      (by decide : parseHeaderName traceparentKey = some traceparentKey),
      (by decide : isBinName traceparentKey = false),
      mapLookup, metadataValueToStr, hval]
    simpa using hval
  rw [hinj]
  simp [tracing_parent_span_from_req, extractContext, hget,
    parseTraceparent_traceparentValue sc h]

/-- Witness for C3: the span context with trace id 1, span id 1 and
flags 1 survives the inject / extract round trip. -/
theorem round_trip_w :
    (tracing_parent_span_from_req
      (tracing_current_span_to_req ⟨some ⟨1, 1, 1⟩⟩ [])
      ⟨Context.empty, 0⟩).parent = ⟨some ⟨1, 1, 1⟩⟩ :=
  round_trip ⟨1, 1, 1⟩ ⟨Context.empty, 0⟩ (by decide)

/-- C5: guards restore in LIFO order — after attaching through
`otel_thread_cx_from_req` twice, one release makes the first attached
context current again, the next release restores the original state
exactly, and in general each attach is undone by exactly one release. -/
theorem guard_lifo_restore (t : ThreadCx) (m1 m2 : MetadataMap) :
    (otel_thread_cx_from_req m2 (otel_thread_cx_from_req m1 t)).release.current =
      extractContext m1 ∧
    (otel_thread_cx_from_req m2 (otel_thread_cx_from_req m1 t)).release =
      otel_thread_cx_from_req m1 t ∧
    (otel_thread_cx_from_req m2 (otel_thread_cx_from_req m1 t)).release.release = t ∧
    (∀ (u : ThreadCx) (cx : Context), (u.attach cx).release = u) :=
  ⟨rfl, rfl, rfl, fun _ _ => rfl⟩

/-- C2: the four exposed operations are total functions of their inputs
with no failure path — each returns its defining value on every input —
and a missing or malformed traceparent header degrades to the
propagator-defined empty context. -/
theorem ops_total_no_failure :
    (∀ (m : MetadataMap) (s : SpanState),
      tracing_parent_span_from_req m s =
        { parent := extractContext m, spanId := s.spanId }) ∧
    (∀ (cx : Context) (m : MetadataMap),
      tracing_current_span_to_req cx m = injectContext cx m) ∧
    (∀ (m : MetadataMap) (t : ThreadCx),
      otel_thread_cx_from_req m t = t.attach (extractContext m)) ∧
    (∀ (t : ThreadCx) (m : MetadataMap),
      otel_thread_cx_to_req t m = injectContext t.current m) ∧
    (∀ (m : MetadataMap), MetadataExtractor.get m traceparentKey = none →
      extractContext m = Context.empty) ∧
    (∀ (m : MetadataMap) (v : List Nat),
      MetadataExtractor.get m traceparentKey = some v →
      parseTraceparent v = none → extractContext m = Context.empty) := by
  refine ⟨fun m s => rfl, fun cx m => rfl, fun m t => rfl, fun t m => rfl, ?_, ?_⟩
  · intro m h
    simp [extractContext, h]
  · intro m v h1 h2
    simp [extractContext, h1, h2]

/-- Witness for C2: extraction from the empty carrier and from a carrier
whose traceparent value is the single malformed byte "0" both yield the
empty context. -/
theorem ops_total_no_failure_w :
    extractContext [] = Context.empty ∧
    extractContext [(traceparentKey, [[48]])] = Context.empty :=
  ⟨ops_total_no_failure.2.2.2.2.1 [] (by decide),
   ops_total_no_failure.2.2.2.2.2 [(traceparentKey, [[48]])] [48]
     (by decide) (by decide)⟩

/-- C8: when the carrier holds no traceparent key, extraction yields the
propagator-defined empty context without failing, setting it as the
current span parent only writes the empty parent (the span identity is
untouched), and the ambient-context path attaches the empty context. -/
theorem missing_header_no_op (m : MetadataMap) (s : SpanState) (t : ThreadCx)
    (h : mapLookup m traceparentKey = none) :
    extractContext m = Context.empty ∧
    tracing_parent_span_from_req m s =
      { parent := Context.empty, spanId := s.spanId } ∧
    otel_thread_cx_from_req m t = t.attach Context.empty := by
  have hget : MetadataExtractor.get m traceparentKey = none := by
    simp [MetadataExtractor.get, metadataMapGet,
      (by decide : parseHeaderName traceparentKey = some traceparentKey),
      (by decide : isBinName traceparentKey = false), h]
  have hcx : extractContext m = Context.empty := by
    simp [extractContext, hget]
  exact ⟨hcx, by simp [tracing_parent_span_from_req, hcx],
    by simp [otel_thread_cx_from_req, hcx]⟩

/-- Witness for C8: extracting from the empty carrier yields the empty
context, parents the current span with it, and attaches it. -/
theorem missing_header_no_op_w :
    extractContext [] = Context.empty ∧
    tracing_parent_span_from_req [] ⟨Context.empty, 5⟩ =
      { parent := Context.empty, spanId := 5 } ∧
    otel_thread_cx_from_req [] ⟨[]⟩ = ThreadCx.attach ⟨[]⟩ Context.empty :=
  missing_header_no_op [] ⟨Context.empty, 5⟩ ⟨[]⟩ (by decide)

end OtelTonic
